import Mathlib

/-!
Verification of the Spruce removal planner / executor (`deprecate.py`) and the
report scaffolding (`report.py`).

Shallow embedding conventions:
* A Python pkginfo plist is a `Pkginfo` record; only the keys consulted by the
  verified functions (`name`, `category`, `installer_item_location`) are kept,
  each an `Option` because the source reads them with `dict.get`.
* A Python dict keyed by path is an association list `Cache`; `dict.get`
  becomes `dictGet`, `in` on a dict becomes `dictContains`, `del` on a single
  key becomes `eraseKey`.
* Python sets are `Finset` when the source only takes images/differences of
  them, and plain member lists where the source iterates over them.
* Python string primitives (`startswith`, `endswith`, `in`, `split`,
  `os.path.join`, `os.path.splitext`, `os.path.dirname`, `str.upper`) are
  re-implemented structurally over `List Char` so that every definition
  evaluates by kernel reduction.
-/

namespace Spruce

/-- One pkginfo record, with the keys the verified code reads via `get`. -/
structure Pkginfo where
  name : Option String
  category : Option String
  installer_item_location : Option String
deriving DecidableEq, Repr

/-- The pkginfo cache: a dict from pkginfo file path to parsed plist. -/
abbrev Cache := List (String × Pkginfo)

/-- Python truthiness of an optional string (`if plist.get(key):`). -/
def truthy : Option String → Bool
  | none => false
  | some s => !(decide (s = ""))

/-- `s.startswith(p)` on Python strings. -/
def strStartsWith (s p : String) : Bool := p.data.isPrefixOf s.data

/-- `s.endswith(p)` on Python strings. -/
def strEndsWith (s p : String) : Bool := p.data.isSuffixOf s.data

/-- Substring containment on character lists. -/
def listInfix (pat : List Char) : List Char → Bool
  | [] => pat.isEmpty
  | c :: rest => pat.isPrefixOf (c :: rest) || listInfix pat rest

/-- `pat in s` on Python strings (substring containment). -/
def strContains (s pat : String) : Bool := listInfix pat.data s.data

/-- `s.upper()` restricted to ASCII, as used on file extensions. -/
def strToUpper (s : String) : String := String.mk (s.data.map Char.toUpper)

/-- `os.path.join(a, b)` for two POSIX path components. -/
def path_join (a b : String) : String :=
  if strStartsWith b "/" then b
  else if a = "" then b
  else if strEndsWith a "/" then a ++ b
  else a ++ "/" ++ b

/-- `path in cache` for a Python dict. -/
def dictContains (c : Cache) (k : String) : Bool :=
  c.any (fun kv => decide (kv.1 = k))

/-- `cache[path]` / `cache.get(path)` for a Python dict. -/
def dictGet : Cache → String → Option Pkginfo
  | [], _ => none
  | kv :: rest, k => if kv.1 = k then some kv.2 else dictGet rest k

/-- `del future_cache[path]` for a Python dict embedded as an assoc list. -/
def eraseKey (c : Cache) (k : String) : Cache :=
  c.filter (fun kv => decide (kv.1 ≠ k))

/-! ## `get_names_to_remove` (deprecate.py lines 121-140) -/

/-- The loop `for removal in removals: if removal in future_cache: del ...`,
starting from `future_cache = dict(cache)`. -/
def future_cache_after (cache : Cache) (removals : List String) : Cache :=
  removals.foldl (fun fc removal =>
    if dictContains fc removal then eraseKey fc removal else fc) cache

/-- `{future_cache[path].get("name") for path in future_cache}` and
`{pkginfo.get("name") for pkginfo in cache.values()}`. -/
def remainingNamesOf (c : Cache) : Finset (Option String) :=
  (c.map (fun kv => kv.2.name)).toFinset

/-- `{cache[path].get("name") for path in removals if path in cache}`. -/
def removalNamesOf (removals : List String) (cache : Cache) : Finset (Option String) :=
  (removals.filterMap (fun p => (dictGet cache p).map (fun pl => pl.name))).toFinset

/-- `get_names_to_remove`: names whose every descriptor is being removed. -/
def get_names_to_remove (removals : List String) (cache : Cache) : Finset (Option String) :=
  removalNamesOf removals cache \ remainingNamesOf (future_cache_after cache removals)

/-- The claim-side post-removal cache: the cache minus the removed paths. -/
def postRemovalCache (cache : Cache) (removals : List String) : Cache :=
  cache.filter (fun kv => decide (kv.1 ∉ removals))

theorem filter_filter_eq (p q : String × Pkginfo → Bool) (l : Cache) :
    (l.filter p).filter q = l.filter (fun a => p a && q a) := by
  induction l with
  | nil => rfl
  | cons a t ih =>
    by_cases hp : p a = true
    · by_cases hq : q a = true <;>
        simp [List.filter_cons, hp, hq, ih]
    · simp [List.filter_cons, hp, Bool.eq_false_iff.mpr hp, ih]

theorem dictContains_eq_false_iff (c : Cache) (k : String) :
    dictContains c k = false ↔ ∀ kv ∈ c, kv.1 ≠ k := by
  simp [dictContains, List.any_eq_true]

/-- The iterated deletion loop computes exactly the cache minus the removed
paths. -/
theorem future_cache_after_eq_postRemovalCache (removals : List String) (cache : Cache) :
    future_cache_after cache removals = postRemovalCache cache removals := by
  induction removals generalizing cache with
  | nil =>
    simp [future_cache_after, postRemovalCache]
  | cons r rs ih =>
    show future_cache_after
        (if dictContains cache r then eraseKey cache r else cache) rs = _
    by_cases h : dictContains cache r = true
    · rw [if_pos h, ih, postRemovalCache, eraseKey, filter_filter_eq, postRemovalCache]
      apply List.filter_congr
      intro kv _
      by_cases h1 : kv.1 = r <;> by_cases h2 : kv.1 ∈ rs <;>
        simp [h1, h2]
    · rw [if_neg (by simp [h]), ih, postRemovalCache, postRemovalCache]
      apply List.filter_congr
      intro kv hkv
      have hne := (dictContains_eq_false_iff cache r).mp
        (Bool.eq_false_iff.mpr (fun hc => h hc)) kv hkv
      by_cases h2 : kv.1 ∈ rs <;> simp [h2, hne]

/-- C1: every name returned by `get_names_to_remove` has zero descriptors left
in the post-removal cache (the cache minus the removed paths): the returned
set equals the removed names minus the surviving names, and is disjoint from
the surviving-name set. -/
theorem names_to_remove_eq_and_disjoint (cache : Cache) (removals : List String) :
    get_names_to_remove removals cache
        = removalNamesOf removals cache
            \ remainingNamesOf (postRemovalCache cache removals)
      ∧ Disjoint (get_names_to_remove removals cache)
          (remainingNamesOf (postRemovalCache cache removals)) := by
  constructor
  · rw [get_names_to_remove, future_cache_after_eq_postRemovalCache]
  · rw [get_names_to_remove, future_cache_after_eq_postRemovalCache]
    exact Finset.sdiff_disjoint

/-! ## `handle_name_removal` (deprecate.py lines 265-282) -/

/-- `handle_name_removal`: one manifest reference list, the removal-name set,
and the result `(new list contents, changes flag, warned items)`.  The Python
function mutates `product_array` in place by `list.remove` (first occurrence)
for each collected match; the first component is the array's final contents.
Warnings (`print` in the source) are returned as the list of warned items. -/
def handle_name_removal (product_array : List String) (names_to_remove : List String) :
    List String × Bool × List String :=
  let removals := product_array.filter (fun item => decide (item ∈ names_to_remove))
  let warned := product_array.filter (fun item =>
    !(decide (item ∈ names_to_remove)) &&
    names_to_remove.any (fun n => strStartsWith item n) &&
    !(names_to_remove.any (fun n => strEndsWith item n)))
  let final := removals.foldl (fun arr item => arr.erase item) product_array
  (final, !removals.isEmpty, warned)

theorem foldl_erase_of_ne (a : String) :
    ∀ (rs t : List String), (∀ x ∈ rs, x ≠ a) →
      rs.foldl (fun arr item => arr.erase item) (a :: t)
        = a :: rs.foldl (fun arr item => arr.erase item) t := by
  intro rs
  induction rs with
  | nil => intro t _; rfl
  | cons r rs ih =>
    intro t h
    have hra : r ≠ a := h r (List.mem_cons_self r rs)
    have : (a :: t).erase r = a :: t.erase r := by
      rw [List.erase_cons, if_neg (fun hc => hra (eq_of_beq hc).symm)]
    simp only [List.foldl_cons, this]
    exact ih (t.erase r) (fun x hx => h x (List.mem_cons_of_mem r hx))

/-- Collecting every exact match and then `list.remove`-ing each of them
deletes exactly the exact matches. -/
theorem foldl_erase_filter (p : String → Bool) (arr : List String) :
    (arr.filter p).foldl (fun l item => l.erase item) arr
      = arr.filter (fun i => !(p i)) := by
  induction arr with
  | nil => rfl
  | cons a t ih =>
    by_cases hp : p a = true
    · rw [List.filter_cons_of_pos hp]
      simp only [List.foldl_cons, List.erase_cons_head]
      rw [ih, List.filter_cons_of_neg (by simp [hp])]
    · rw [List.filter_cons_of_neg hp,
        foldl_erase_of_ne a (t.filter p) t
          (fun x hx hxa => by
            have := List.of_mem_filter hx
            rw [hxa] at this
            exact hp this),
        ih, List.filter_cons_of_pos (by simp [hp])]

/-- C2: `handle_name_removal` deletes an entry iff it is an exact string match
of a removal name: the final array is the original filtered to the non-members
(so an entry that merely starts with a removal name survives), and the changes
flag is set iff some entry was an exact match. -/
theorem handle_name_removal_exact_only (product_array names_to_remove : List String) :
    (handle_name_removal product_array names_to_remove).1
        = product_array.filter (fun item => decide (item ∉ names_to_remove))
      ∧ ((handle_name_removal product_array names_to_remove).2.1 = true
          ↔ ∃ item ∈ product_array, item ∈ names_to_remove) := by
  constructor
  · show (List.filter _ product_array).foldl _ product_array = _
    rw [foldl_erase_filter]
    apply List.filter_congr
    intro x _
    by_cases h : x ∈ names_to_remove <;> simp [h]
  · show (!(List.filter _ product_array).isEmpty) = true ↔ _
    rw [Bool.not_eq_true', List.isEmpty_eq_false_iff_exists_mem]
    constructor
    · rintro ⟨x, hx⟩
      exact ⟨x, List.mem_of_mem_filter hx, by simpa using List.of_mem_filter hx⟩
    · rintro ⟨x, hx, hmem⟩
      exact ⟨x, List.mem_filter.mpr ⟨hx, by simpa using hmem⟩⟩

/-! ## Manifests -/

/-- One element of a manifest's `conditional_items` array: the same four
reference-list keys, each optional because read via `get`. -/
structure Conditional where
  managed_installs : Option (List String)
  managed_uninstalls : Option (List String)
  optional_installs : Option (List String)
  managed_updates : Option (List String)
deriving DecidableEq, Repr

/-- A manifest plist: four optional reference lists plus an optional
`conditional_items` array (one level deep). -/
structure Manifest where
  managed_installs : Option (List String)
  managed_uninstalls : Option (List String)
  optional_installs : Option (List String)
  managed_updates : Option (List String)
  conditional_items : Option (List Conditional)
deriving DecidableEq, Repr

/-- The four reference lists of a manifest, in the iteration order of
`report.py`'s `collections` tuple. -/
def manifestCollections (m : Manifest) : List (Option (List String)) :=
  [m.managed_installs, m.managed_uninstalls, m.optional_installs, m.managed_updates]

/-- The four reference lists of a conditional entry, in the same order. -/
def conditionalCollections (c : Conditional) : List (Option (List String)) :=
  [c.managed_installs, c.managed_uninstalls, c.optional_installs, c.managed_updates]

/-! ## `get_manifest_items` (report.py lines 402-430) -/

/-- `if items: used_items.update(items)` for one `get(collection)` result. -/
def updateFromCollection (used : Finset String) (o : Option (List String)) : Finset String :=
  match o with
  | none => used
  | some items => if items.isEmpty then used else used ∪ items.toFinset

/-- The body of `get_manifest_items`'s outer loop for one manifest. -/
def collectManifestItems (used : Finset String) (m : Manifest) : Finset String :=
  let u1 := (manifestCollections m).foldl updateFromCollection used
  (m.conditional_items.getD []).foldl
    (fun u c => (conditionalCollections c).foldl updateFromCollection u) u1

/-- `get_manifest_items`: the seed set of names referenced by any manifest. -/
def get_manifest_items (manifests : List Manifest) : Finset String :=
  manifests.foldl collectManifestItems ∅

/-- All name strings appearing in a manifest's four reference lists, plus the
four lists of each `conditional_items` element. -/
def manifestRefEntries (m : Manifest) : List String :=
  ((manifestCollections m).map (fun o => o.getD [])).flatten
    ++ ((m.conditional_items.getD []).map
        (fun c => ((conditionalCollections c).map (fun o => o.getD [])).flatten)).flatten

theorem mem_foldl_updateFromCollection (x : String) :
    ∀ (os : List (Option (List String))) (used : Finset String),
      x ∈ os.foldl updateFromCollection used
        ↔ x ∈ used ∨ ∃ o ∈ os, x ∈ o.getD [] := by
  intro os
  induction os with
  | nil => intro used; simp
  | cons o os ih =>
    intro used
    rw [List.foldl_cons, ih]
    match o with
    | none => simp [updateFromCollection]
    | some items =>
      by_cases h : items.isEmpty
      · have : items = [] := by simpa using h
        simp [updateFromCollection, h, this]
      · simp only [updateFromCollection, if_neg h]
        simp only [Finset.mem_union, List.mem_toFinset, List.mem_cons]
        constructor
        · rintro ((hx | hx) | ⟨o2, ho2, hx⟩)
          · exact Or.inl hx
          · exact Or.inr ⟨some items, Or.inl rfl, hx⟩
          · exact Or.inr ⟨o2, Or.inr ho2, hx⟩
        · rintro (hx | ⟨o2, (rfl | ho2), hx⟩)
          · exact Or.inl (Or.inl hx)
          · exact Or.inl (Or.inr hx)
          · exact Or.inr ⟨o2, ho2, hx⟩

theorem mem_collectManifestItems (x : String) (used : Finset String) (m : Manifest) :
    x ∈ collectManifestItems used m ↔ x ∈ used ∨ x ∈ manifestRefEntries m := by
  show x ∈ (m.conditional_items.getD []).foldl _ _ ↔ _
  have inner : ∀ (cs : List Conditional) (u : Finset String),
      x ∈ cs.foldl (fun u c => (conditionalCollections c).foldl updateFromCollection u) u
        ↔ x ∈ u ∨ ∃ c ∈ cs, ∃ o ∈ conditionalCollections c, x ∈ o.getD [] := by
    intro cs
    induction cs with
    | nil => intro u; simp
    | cons c cs ih =>
      intro u
      rw [List.foldl_cons, ih, mem_foldl_updateFromCollection]
      constructor
      · rintro ((hx | ⟨o, ho, hx⟩) | ⟨c2, hc2, ho⟩)
        · exact Or.inl hx
        · exact Or.inr ⟨c, List.mem_cons_self c cs, o, ho, hx⟩
        · exact Or.inr ⟨c2, List.mem_cons_of_mem c hc2, ho⟩
      · rintro (hx | ⟨c2, hc2, o, ho, hx⟩)
        · exact Or.inl (Or.inl hx)
        · rcases List.mem_cons.mp hc2 with rfl | hc2
          · exact Or.inl (Or.inr ⟨o, ho, hx⟩)
          · exact Or.inr ⟨c2, hc2, o, ho, hx⟩
  rw [inner, mem_foldl_updateFromCollection]
  simp only [manifestRefEntries, List.mem_append, List.mem_flatten, List.mem_map]
  constructor
  · rintro ((hx | ⟨o, ho, hx⟩) | ⟨c, hc, o, ho, hx⟩)
    · exact Or.inl hx
    · exact Or.inr (Or.inl ⟨o.getD [], ⟨o, ho, rfl⟩, hx⟩)
    · exact Or.inr (Or.inr ⟨((conditionalCollections c).map (fun o => o.getD [])).flatten,
        ⟨c, hc, rfl⟩, List.mem_flatten.mpr ⟨o.getD [], List.mem_map.mpr ⟨o, ho, rfl⟩, hx⟩⟩)
  · rintro (hx | (⟨l, ⟨o, ho, rfl⟩, hx⟩ | ⟨l, ⟨c, hc, rfl⟩, hx⟩))
    · exact Or.inl (Or.inl hx)
    · exact Or.inl (Or.inr ⟨o, ho, hx⟩)
    · rcases List.mem_flatten.mp hx with ⟨l2, hl2, hx2⟩
      rcases List.mem_map.mp hl2 with ⟨o, ho, rfl⟩
      exact Or.inr ⟨c, hc, o, ho, hx2⟩

/-- C4: the seed set computed by `get_manifest_items` is exactly the union of
all names in the four reference lists of every manifest, plus those lists
inside each element of each manifest's `conditional_items`, one level deep. -/
theorem get_manifest_items_eq_union (manifests : List Manifest) :
    get_manifest_items manifests = ((manifests.map manifestRefEntries).flatten).toFinset := by
  ext x
  rw [List.mem_toFinset, List.mem_flatten]
  show x ∈ manifests.foldl collectManifestItems ∅ ↔ _
  have main : ∀ (ms : List Manifest) (used : Finset String),
      x ∈ ms.foldl collectManifestItems used
        ↔ x ∈ used ∨ ∃ m ∈ ms, x ∈ manifestRefEntries m := by
    intro ms
    induction ms with
    | nil => intro used; simp
    | cons m ms ih =>
      intro used
      rw [List.foldl_cons, ih]
      constructor
      · rintro (hx | ⟨m2, hm2, hx⟩)
        · rcases (mem_collectManifestItems x used m).mp hx with hx | hx
          · exact Or.inl hx
          · exact Or.inr ⟨m, List.mem_cons_self m ms, hx⟩
        · exact Or.inr ⟨m2, List.mem_cons_of_mem m hm2, hx⟩
      · rintro (hx | ⟨m2, hm2, hx⟩)
        · exact Or.inl ((mem_collectManifestItems x used m).mpr (Or.inl hx))
        · rcases List.mem_cons.mp hm2 with rfl | hm2
          · exact Or.inl ((mem_collectManifestItems x used m2).mpr (Or.inr hx))
          · exact Or.inr ⟨m2, hm2, hx⟩
  rw [main]
  constructor
  · rintro (hx | ⟨m, hm, hx⟩)
    · simp at hx
    · exact ⟨manifestRefEntries m, List.mem_map.mpr ⟨m, hm, rfl⟩, hx⟩
  · rintro ⟨l, hl, hx⟩
    rcases List.mem_map.mp hl with ⟨m, hm, rfl⟩
    exact Or.inr ⟨m, hm, hx⟩

/-! ## `remove_names_from_manifests` (deprecate.py lines 212-262)

The executor re-reads the repository: the fresh descriptor cache and the
directory of manifest files are passed in explicitly (`cache`,
`manifests`), standing for the state of the disk when the function runs.
A manifest that fails to parse is an `Except.error`.  The result is the
pair (paths of manifests read, manifests written back with their new
contents).  The requested `names` set (a Python set built from
`plist.get("name")` values, so its elements are optional strings) is
embedded as the list of its members. -/

/-- One `manifest.get(key)` / `if product_array:` / `handle_name_removal`
step of the rewrite loop: the new list value and its changes flag. -/
def stripCollection : Option (List String) → List String → Option (List String) × Bool
  | none, _ => (none, false)
  | some arr, names_to_remove =>
    if arr.isEmpty then (some arr, false)
    else
      let r := handle_name_removal arr names_to_remove
      (some r.1, r.2.1)

/-- The inner loop over one `conditional_items` element. -/
def strip_conditional (c : Conditional) (names_to_remove : List String) :
    Conditional × Bool :=
  let mi := stripCollection c.managed_installs names_to_remove
  let oi := stripCollection c.optional_installs names_to_remove
  let mu := stripCollection c.managed_updates names_to_remove
  let mun := stripCollection c.managed_uninstalls names_to_remove
  (⟨mi.1, mun.1, oi.1, mu.1⟩, mi.2 || oi.2 || mu.2 || mun.2)

/-- The per-manifest body of `remove_names_from_manifests`: the rewritten
manifest and whether any of its lists changed. -/
def strip_manifest (m : Manifest) (names_to_remove : List String) :
    Manifest × Bool :=
  let mi := stripCollection m.managed_installs names_to_remove
  let oi := stripCollection m.optional_installs names_to_remove
  let mu := stripCollection m.managed_updates names_to_remove
  let mun := stripCollection m.managed_uninstalls names_to_remove
  let base := mi.2 || oi.2 || mu.2 || mun.2
  match m.conditional_items with
  | none => (⟨mi.1, mun.1, oi.1, mu.1, none⟩, base)
  | some conds =>
    let rs := conds.map (fun c => strip_conditional c names_to_remove)
    (⟨mi.1, mun.1, oi.1, mu.1, some (rs.map (fun r => r.1))⟩,
      base || rs.any (fun r => r.2))

/-- The final removal-name set `names - remaining_names` itself, `None`
members included (the requested set holds `plist.get("name")` values, so a
descriptor without a `name` key contributes `None`). -/
def finalRemovalNamesOpt (names : List (Option String)) (cache : Cache) :
    List (Option String) :=
  names.filter (fun n => decide (n ∉ remainingNamesOf cache))

/-- The string members of the final removal-name set (a `None` member can
never equal a manifest entry, which is a string, so exact-match deletion is
governed by the string members alone). -/
def finalRemovalNames (names : List (Option String)) (cache : Cache) : List String :=
  (finalRemovalNamesOpt names cache).filterMap id

/-- Whether processing one reference list raises: when the removal set has a
`None` member and the (nonempty) list has an entry that is not an exact
match, the source evaluates `item.startswith(tuple(names_to_remove))`, and
`str.startswith` rejects the non-string tuple member with `TypeError`. -/
def stripCrashes (o : Option (List String)) (ntrOpt : List (Option String)) : Bool :=
  match o with
  | none => false
  | some arr =>
    !arr.isEmpty && decide ((none : Option String) ∈ ntrOpt)
      && arr.any (fun item => decide (some item ∉ ntrOpt))

/-- One reference list processed with the removal set as the source passes it
(`None` members included): either the uncaught `TypeError` (`Except.error`),
or the result of `handle_name_removal`, whose exact-match test
`item in names_to_remove` is decided by the string members alone. -/
def stripCollectionE (o : Option (List String)) (ntrOpt : List (Option String)) :
    Except Unit (Option (List String) × Bool) :=
  if stripCrashes o ntrOpt then Except.error ()
  else Except.ok (stripCollection o (ntrOpt.filterMap id))

/-- Whether processing one `conditional_items` element raises: the element is
processed list by list, so it raises exactly when some list raises. -/
def conditionalCrashes (c : Conditional) (ntrOpt : List (Option String)) : Bool :=
  stripCrashes c.managed_installs ntrOpt || stripCrashes c.optional_installs ntrOpt
    || stripCrashes c.managed_updates ntrOpt || stripCrashes c.managed_uninstalls ntrOpt

/-- The inner loop over one `conditional_items` element, with the `TypeError`
propagated: the sequential list-by-list processing raises iff some list
raises, and otherwise produces exactly the pure result. -/
def strip_conditionalE (c : Conditional) (ntrOpt : List (Option String)) :
    Except Unit (Conditional × Bool) :=
  if conditionalCrashes c ntrOpt then Except.error ()
  else Except.ok (strip_conditional c (ntrOpt.filterMap id))

/-- Whether processing a whole manifest raises: its four lists and every
`conditional_items` element are processed in turn, so it raises exactly when
one of them raises. -/
def manifestCrashes (m : Manifest) (ntrOpt : List (Option String)) : Bool :=
  stripCrashes m.managed_installs ntrOpt || stripCrashes m.optional_installs ntrOpt
    || stripCrashes m.managed_updates ntrOpt || stripCrashes m.managed_uninstalls ntrOpt
    || (m.conditional_items.getD []).any (fun c => conditionalCrashes c ntrOpt)

/-- The per-manifest body of `remove_names_from_manifests`, with the
`TypeError` propagated: the rewritten manifest and its changed flag when no
list raises, the abort otherwise. -/
def strip_manifestE (m : Manifest) (ntrOpt : List (Option String)) :
    Except Unit (Manifest × Bool) :=
  if manifestCrashes m ntrOpt then Except.error ()
  else Except.ok (strip_manifest m (ntrOpt.filterMap id))

/-- The glob loop of `remove_names_from_manifests`: manifests processed in
order, accumulating `((read paths, abort marker), written manifests)`.  A
parse failure is read, logged and skipped; the `TypeError` aborts the whole
run at once (nothing later is read, the crashing manifest is not written,
writes already performed stand). -/
def removeNamesLoop (ntrOpt : List (Option String)) :
    List (String × Except Unit Manifest) →
    (List String × Option Unit) × List (String × Manifest)
  | [] => (([], none), [])
  | pm :: rest =>
    match pm.2 with
    | Except.error _ =>
      (((pm.1 :: (removeNamesLoop ntrOpt rest).1.1),
        (removeNamesLoop ntrOpt rest).1.2),
       (removeNamesLoop ntrOpt rest).2)
    | Except.ok m =>
      match strip_manifestE m ntrOpt with
      | Except.error _ => (([pm.1], some ()), [])
      | Except.ok r =>
        (((pm.1 :: (removeNamesLoop ntrOpt rest).1.1),
          (removeNamesLoop ntrOpt rest).1.2),
         if r.2 then (pm.1, r.1) :: (removeNamesLoop ntrOpt rest).2
         else (removeNamesLoop ntrOpt rest).2)

/-- `remove_names_from_manifests`: returns
`((read paths, abort marker), written manifests)`. -/
def remove_names_from_manifests (names : List (Option String)) (cache : Cache)
    (manifests : List (String × Except Unit Manifest)) :
    (List String × Option Unit) × List (String × Manifest) :=
  if names.isEmpty then (([], none), [])
  else removeNamesLoop (finalRemovalNamesOpt names cache) manifests

/-- Spec-side description of stripping: every reference list of the manifest,
including inside `conditional_items`, filtered by a keep predicate. -/
def manifestFilteredSpec (m : Manifest) (keep : String → Bool) : Manifest :=
  ⟨m.managed_installs.map (fun l => l.filter keep),
   m.managed_uninstalls.map (fun l => l.filter keep),
   m.optional_installs.map (fun l => l.filter keep),
   m.managed_updates.map (fun l => l.filter keep),
   m.conditional_items.map (fun cs => cs.map (fun c =>
     ⟨c.managed_installs.map (fun l => l.filter keep),
      c.managed_uninstalls.map (fun l => l.filter keep),
      c.optional_installs.map (fun l => l.filter keep),
      c.managed_updates.map (fun l => l.filter keep)⟩))⟩

theorem stripCollection_fst (o : Option (List String)) (ntr : List String) :
    (stripCollection o ntr).1 = o.map (fun l => l.filter (fun i => decide (i ∉ ntr))) := by
  match o with
  | none => rfl
  | some arr =>
    by_cases h : arr.isEmpty
    · have harr : arr = [] := by simpa using h
      simp [stripCollection, harr]
    · show ((if arr.isEmpty then (some arr, false)
        else (some (handle_name_removal arr ntr).1,
          (handle_name_removal arr ntr).2.1)).1 : Option (List String)) = _
      rw [if_neg h]
      exact congrArg some (handle_name_removal_exact_only arr ntr).1

theorem strip_conditional_fst (c : Conditional) (ntr : List String) :
    (strip_conditional c ntr).1
      = ⟨c.managed_installs.map (fun l => l.filter (fun i => decide (i ∉ ntr))),
         c.managed_uninstalls.map (fun l => l.filter (fun i => decide (i ∉ ntr))),
         c.optional_installs.map (fun l => l.filter (fun i => decide (i ∉ ntr))),
         c.managed_updates.map (fun l => l.filter (fun i => decide (i ∉ ntr)))⟩ := by
  simp only [strip_conditional, stripCollection_fst]

theorem strip_manifest_fst (m : Manifest) (ntr : List String) :
    (strip_manifest m ntr).1
      = manifestFilteredSpec m (fun i => decide (i ∉ ntr)) := by
  match m with
  | ⟨mi, mun, oi, mu, none⟩ =>
    simp [strip_manifest, manifestFilteredSpec, stripCollection_fst]
  | ⟨mi, mun, oi, mu, some cs⟩ =>
    simp only [strip_manifest, manifestFilteredSpec, stripCollection_fst, List.map_map,
      Option.map_some']
    congr 1
    apply congrArg some
    apply List.map_congr_left
    intro c _
    simp only [Function.comp_apply, strip_conditional_fst]

/-- All entries of every reference list of a conditional element. -/
def conditionalEntries (c : Conditional) : List String :=
  ((conditionalCollections c).map (fun o => o.getD [])).flatten

/-- All entries of every reference list of a manifest, conditionals included. -/
def manifestEntries (m : Manifest) : List String :=
  ((manifestCollections m).map (fun o => o.getD [])).flatten
    ++ ((m.conditional_items.getD []).map conditionalEntries).flatten

theorem stripCollection_snd (o : Option (List String)) (ntr : List String) :
    (stripCollection o ntr).2 = true ↔ ∃ e ∈ o.getD [], e ∈ ntr := by
  match o with
  | none => simp [stripCollection]
  | some arr =>
    by_cases h : arr.isEmpty
    · have : arr = [] := by simpa using h
      simp [stripCollection, h, this]
    · simp only [stripCollection, if_neg h, Option.getD_some]
      exact (handle_name_removal_exact_only arr ntr).2

theorem strip_conditional_snd (c : Conditional) (ntr : List String) :
    (strip_conditional c ntr).2 = true ↔ ∃ e ∈ conditionalEntries c, e ∈ ntr := by
  show ((stripCollection c.managed_installs ntr).2
      || (stripCollection c.optional_installs ntr).2
      || (stripCollection c.managed_updates ntr).2
      || (stripCollection c.managed_uninstalls ntr).2) = true ↔ _
  simp only [Bool.or_eq_true, stripCollection_snd, conditionalEntries,
    conditionalCollections, List.map_cons, List.map_nil, List.flatten_cons,
    List.flatten_nil, List.append_nil, List.mem_append]
  aesop

theorem strip_manifest_snd (m : Manifest) (ntr : List String) :
    (strip_manifest m ntr).2 = true ↔ ∃ e ∈ manifestEntries m, e ∈ ntr := by
  match m with
  | ⟨mi, mun, oi, mu, none⟩ =>
    show ((stripCollection mi ntr).2 || (stripCollection oi ntr).2
        || (stripCollection mu ntr).2 || (stripCollection mun ntr).2) = true ↔ _
    simp only [Bool.or_eq_true, stripCollection_snd, manifestEntries,
      manifestCollections, List.map_cons, List.map_nil, List.flatten_cons,
      List.flatten_nil, List.append_nil, List.mem_append, Option.getD_none,
      List.not_mem_nil]
    aesop
  | ⟨mi, mun, oi, mu, some cs⟩ =>
    show (((stripCollection mi ntr).2 || (stripCollection oi ntr).2
        || (stripCollection mu ntr).2 || (stripCollection mun ntr).2)
        || (cs.map (fun c => strip_conditional c ntr)).any (fun r => r.2)) = true ↔ _
    simp only [Bool.or_eq_true, stripCollection_snd, List.any_eq_true, List.mem_map]
    have hc : (∃ r, (∃ c ∈ cs, strip_conditional c ntr = r) ∧ r.2 = true)
        ↔ ∃ c ∈ cs, ∃ e ∈ conditionalEntries c, e ∈ ntr := by
      constructor
      · rintro ⟨r, ⟨c, hcs, rfl⟩, hr⟩
        exact ⟨c, hcs, (strip_conditional_snd c ntr).mp hr⟩
      · rintro ⟨c, hcs, he⟩
        exact ⟨strip_conditional c ntr, ⟨c, hcs, rfl⟩,
          (strip_conditional_snd c ntr).mpr he⟩
    rw [hc]
    simp only [manifestEntries, manifestCollections, List.map_cons, List.map_nil,
      List.flatten_cons, List.flatten_nil, List.append_nil, List.mem_append,
      Option.getD_some, List.mem_flatten, List.mem_map]
    constructor
    · rintro ((((⟨e, he, hm⟩ | ⟨e, he, hm⟩) | ⟨e, he, hm⟩) | ⟨e, he, hm⟩)
        | ⟨c, hcs, e, he, hm⟩)
      · exact ⟨e, Or.inl (Or.inl he), hm⟩
      · exact ⟨e, Or.inl (Or.inr (Or.inr (Or.inl he))), hm⟩
      · exact ⟨e, Or.inl (Or.inr (Or.inr (Or.inr he))), hm⟩
      · exact ⟨e, Or.inl (Or.inr (Or.inl he)), hm⟩
      · exact ⟨e, Or.inr ⟨conditionalEntries c, ⟨c, hcs, rfl⟩, he⟩, hm⟩
    · rintro ⟨e, he | ⟨l, ⟨c, hcs, rfl⟩, hel⟩, hm⟩
      · rcases he with he | he | he | he
        · exact Or.inl (Or.inl (Or.inl (Or.inl ⟨e, he, hm⟩)))
        · exact Or.inl (Or.inr ⟨e, he, hm⟩)
        · exact Or.inl (Or.inl (Or.inl (Or.inr ⟨e, he, hm⟩)))
        · exact Or.inl (Or.inl (Or.inr ⟨e, he, hm⟩))
      · exact Or.inr ⟨c, hcs, e, hel, hm⟩

theorem stripCollectionE_ok_eq {o : Option (List String)} {ntrOpt : List (Option String)}
    {r : Option (List String) × Bool} (h : stripCollectionE o ntrOpt = Except.ok r) :
    r = stripCollection o (ntrOpt.filterMap id) := by
  rw [stripCollectionE] at h
  by_cases hc : stripCrashes o ntrOpt = true
  · rw [if_pos hc] at h
    exact absurd h (by simp)
  · rw [if_neg hc] at h
    injection h with h2
    exact h2.symm

theorem stripCollectionE_no_none (o : Option (List String)) (ntrOpt : List (Option String))
    (hnone : (none : Option String) ∉ ntrOpt) :
    stripCollectionE o ntrOpt = Except.ok (stripCollection o (ntrOpt.filterMap id)) := by
  rw [stripCollectionE, if_neg]
  rw [Bool.not_eq_true]
  match o with
  | none => rfl
  | some arr =>
    show (!arr.isEmpty && decide ((none : Option String) ∈ ntrOpt) && _) = false
    simp [hnone]

theorem stripCrashes_no_none (o : Option (List String)) (ntrOpt : List (Option String))
    (hnone : (none : Option String) ∉ ntrOpt) : stripCrashes o ntrOpt = false := by
  match o with
  | none => rfl
  | some arr => simp [stripCrashes, hnone]

theorem strip_manifestE_ok_eq {m : Manifest} {ntrOpt : List (Option String)}
    {r : Manifest × Bool} (h : strip_manifestE m ntrOpt = Except.ok r) :
    r = strip_manifest m (ntrOpt.filterMap id) := by
  rw [strip_manifestE] at h
  by_cases hc : manifestCrashes m ntrOpt = true
  · rw [if_pos hc] at h
    exact absurd h (by simp)
  · rw [if_neg hc] at h
    injection h with h2
    exact h2.symm

theorem strip_manifestE_no_none (m : Manifest) (ntrOpt : List (Option String))
    (hnone : (none : Option String) ∉ ntrOpt) :
    strip_manifestE m ntrOpt
      = Except.ok (strip_manifest m (ntrOpt.filterMap id)) := by
  rw [strip_manifestE, if_neg]
  rw [Bool.not_eq_true, manifestCrashes]
  simp [stripCrashes_no_none _ _ hnone, conditionalCrashes]

theorem removeNamesLoop_writes_mem (ntrOpt : List (Option String)) :
    ∀ (manifests : List (String × Except Unit Manifest)) (p : String) (m' : Manifest),
      (p, m') ∈ (removeNamesLoop ntrOpt manifests).2 →
      ∃ m, (p, Except.ok m) ∈ manifests
        ∧ strip_manifestE m ntrOpt = Except.ok (m', true) := by
  intro manifests
  induction manifests with
  | nil => intro p m' h; exact absurd h (List.not_mem_nil _)
  | cons pm rest ih =>
    intro p m' h
    rcases pm with ⟨q, em⟩
    cases em with
    | error e =>
      simp only [removeNamesLoop] at h
      rcases ih p m' h with ⟨m, hm, hok⟩
      exact ⟨m, List.mem_cons_of_mem _ hm, hok⟩
    | ok m0 =>
      simp only [removeNamesLoop] at h
      cases hs : strip_manifestE m0 ntrOpt with
      | error e =>
        rw [hs] at h
        exact absurd h (List.not_mem_nil _)
      | ok r =>
        simp only [hs] at h
        by_cases hch : r.2 = true
        · rw [if_pos hch] at h
          rcases List.mem_cons.mp h with heq | hmem
          · have hp : p = q := congrArg Prod.fst heq
            have hm2 : m' = r.1 := congrArg Prod.snd heq
            refine ⟨m0, by rw [hp]; exact List.mem_cons_self _ _, ?_⟩
            rw [hs]
            apply congrArg
            rw [hm2, ← hch]
          · rcases ih p m' hmem with ⟨m, hm, hok⟩
            exact ⟨m, List.mem_cons_of_mem _ hm, hok⟩
        · rw [if_neg hch] at h
          rcases ih p m' h with ⟨m, hm, hok⟩
          exact ⟨m, List.mem_cons_of_mem _ hm, hok⟩

theorem removeNamesLoop_no_none (ntrOpt : List (Option String))
    (hnone : (none : Option String) ∉ ntrOpt) :
    ∀ manifests : List (String × Except Unit Manifest),
      removeNamesLoop ntrOpt manifests
        = ((manifests.map (fun pm => pm.1), none),
           manifests.filterMap (fun pm =>
             match pm.2 with
             | Except.error _ => none
             | Except.ok m =>
               if (strip_manifest m (ntrOpt.filterMap id)).2
               then some (pm.1, (strip_manifest m (ntrOpt.filterMap id)).1)
               else none)) := by
  intro manifests
  induction manifests with
  | nil => rfl
  | cons pm rest ih =>
    rcases pm with ⟨q, em⟩
    cases em with
    | error e =>
      simp only [removeNamesLoop, ih, List.map_cons, List.filterMap_cons]
    | ok m0 =>
      simp only [removeNamesLoop, strip_manifestE_no_none m0 ntrOpt hnone, ih,
        List.map_cons, List.filterMap_cons]
      by_cases hch : (strip_manifest m0 (ntrOpt.filterMap id)).2 = true
      · simp [hch]
      · simp [hch]

theorem mem_finalRemovalNames (names : List (Option String)) (cache : Cache) (s : String) :
    s ∈ finalRemovalNames names cache
      ↔ some s ∈ names ∧ some s ∉ remainingNamesOf cache := by
  simp only [finalRemovalNames, finalRemovalNamesOpt, List.mem_filterMap, id,
    List.mem_filter, decide_eq_true_eq]
  constructor
  · rintro ⟨o, ⟨ho, hno⟩, rfl⟩
    exact ⟨ho, hno⟩
  · rintro ⟨h1, h2⟩
    exact ⟨some s, ⟨h1, h2⟩, rfl⟩

/-- C3: before stripping, the final filter is re-derived from the freshly
rebuilt descriptor cache (the `cache` argument, standing for the disk state
at execution time): membership in the strip set is exactly "requested and
not named by any descriptor in the fresh cache", and every manifest written
back is the original filtered by precisely that predicate. -/
theorem remove_names_refreshes_filter (names : List (Option String)) (cache : Cache)
    (manifests : List (String × Except Unit Manifest)) :
    (∀ s : String, s ∈ finalRemovalNames names cache
        ↔ some s ∈ names ∧ some s ∉ remainingNamesOf cache)
      ∧ ∀ p : String, ∀ m' : Manifest,
          (p, m') ∈ (remove_names_from_manifests names cache manifests).2 →
          ∃ m, (p, Except.ok m) ∈ manifests
            ∧ m' = manifestFilteredSpec m
                (fun s => !(decide (some s ∈ names ∧ some s ∉ remainingNamesOf cache))) := by
  refine ⟨fun s => mem_finalRemovalNames names cache s, ?_⟩
  intro p m' hmem
  by_cases hni : names.isEmpty = true
  · rw [show remove_names_from_manifests names cache manifests = (([], none), []) from by
      rw [remove_names_from_manifests, if_pos hni]] at hmem
    exact absurd hmem (List.not_mem_nil _)
  · rw [remove_names_from_manifests, if_neg hni] at hmem
    rcases removeNamesLoop_writes_mem (finalRemovalNamesOpt names cache)
        manifests p m' hmem with ⟨m, hm, hok⟩
    have hr := strip_manifestE_ok_eq hok
    refine ⟨m, hm, ?_⟩
    have hm2 : m' = (strip_manifest m
        ((finalRemovalNamesOpt names cache).filterMap id)).1 := congrArg Prod.fst hr
    rw [hm2, strip_manifest_fst]
    apply congrArg (manifestFilteredSpec m)
    funext s
    rw [decide_not]
    apply congrArg
    apply decide_eq_decide.mpr
    exact mem_finalRemovalNames names cache s

/-- Witness for C3 at a concrete repository state: requested name `X`, empty
fresh cache, one manifest listing `X` and `Y`. -/
theorem remove_names_refreshes_filter_witness :
    ∃ m, (("m", Except.ok m)
          ∈ ([("m", Except.ok (⟨some ["X", "Y"], none, none, none, none⟩ : Manifest))]
              : List (String × Except Unit Manifest)))
      ∧ (⟨some ["Y"], none, none, none, none⟩ : Manifest)
          = manifestFilteredSpec m
              (fun s => !(decide (some s ∈ [some "X"]
                ∧ some s ∉ remainingNamesOf ([] : Cache)))) :=
  (remove_names_refreshes_filter [some "X"] []
      [("m", Except.ok ⟨some ["X", "Y"], none, none, none, none⟩)]).2
    "m" ⟨some ["Y"], none, none, none, none⟩ (by decide)

/-- C8 counterexample: with requested names `{some "X", None}` (a descriptor
without a `name` key was removed), empty fresh cache, and one manifest whose
`managed_installs` is `["X", "Y"]`, the entry `X` is in the final removal-name
set and would be removed, but the non-matching entry `Y` makes
`item.startswith(tuple(names_to_remove))` raise `TypeError`: the run aborts
and the manifest is never written, falsifying "written iff an entry was
removed". -/
theorem manifest_write_crash_counterexample :
    (remove_names_from_manifests [some "X", none] []
        [("m", Except.ok (⟨some ["X", "Y"], none, none, none, none⟩ : Manifest))]).2 = []
      ∧ (remove_names_from_manifests [some "X", none] []
          [("m", Except.ok (⟨some ["X", "Y"], none, none, none, none⟩ : Manifest))]).1.2
        = some ()
      ∧ "X" ∈ manifestEntries (⟨some ["X", "Y"], none, none, none, none⟩ : Manifest)
      ∧ "X" ∈ finalRemovalNames [some "X", none] ([] : Cache) := by
  refine ⟨by decide, by decide, by decide, by decide⟩

/-- C8 amended: provided the final removal-name set has no `None` member (as
when every removed descriptor carries a `name`), the run never aborts, and
`remove_names_from_manifests` writes a manifest back iff at least one of its
reference lists (conditionals included) had an entry removed, i.e. iff some
entry lies in the final removal-name set; with an empty requested name set it
reads and writes nothing at all. -/
theorem manifest_write_iff_changed_amended (names : List (Option String)) (cache : Cache)
    (manifests : List (String × Except Unit Manifest))
    (hnone : (none : Option String) ∉ finalRemovalNamesOpt names cache) :
    (remove_names_from_manifests names cache manifests).1.2 = none
      ∧ (names.isEmpty = true →
          remove_names_from_manifests names cache manifests = (([], none), []))
      ∧ ∀ p : String, ∀ m' : Manifest,
          (p, m') ∈ (remove_names_from_manifests names cache manifests).2
            ↔ ∃ m, (p, Except.ok m) ∈ manifests
                ∧ (∃ e ∈ manifestEntries m, e ∈ finalRemovalNames names cache)
                ∧ m' = (strip_manifest m (finalRemovalNames names cache)).1 := by
  by_cases hni : names.isEmpty = true
  · have hempty : remove_names_from_manifests names cache manifests = (([], none), []) := by
      rw [remove_names_from_manifests, if_pos hni]
    have hnames : names = [] := by simpa using hni
    refine ⟨by rw [hempty], fun _ => hempty, ?_⟩
    intro p m'
    rw [hempty]
    constructor
    · intro hmem
      exact absurd hmem (List.not_mem_nil _)
    · rintro ⟨m, _, ⟨e, _, hmem⟩, _⟩
      rw [hnames] at hmem
      simp [finalRemovalNames, finalRemovalNamesOpt] at hmem
  · have hloop : remove_names_from_manifests names cache manifests
        = ((manifests.map (fun pm => pm.1), none),
           manifests.filterMap (fun pm =>
             match pm.2 with
             | Except.error _ => none
             | Except.ok m =>
               if (strip_manifest m (finalRemovalNames names cache)).2
               then some (pm.1, (strip_manifest m (finalRemovalNames names cache)).1)
               else none)) := by
      rw [remove_names_from_manifests, if_neg hni]
      exact removeNamesLoop_no_none (finalRemovalNamesOpt names cache) hnone manifests
    refine ⟨by rw [hloop], fun h => absurd h hni, ?_⟩
    intro p m'
    rw [hloop]
    show (p, m') ∈ manifests.filterMap _ ↔ _
    rw [List.mem_filterMap]
    constructor
    · rintro ⟨⟨q, em⟩, hpm, hf⟩
      cases em with
      | error e => simp at hf
      | ok m =>
        by_cases hch : (strip_manifest m (finalRemovalNames names cache)).2 = true
        · simp only [hch, if_true, Option.some.injEq, Prod.mk.injEq] at hf
          rcases hf with ⟨rfl, rfl⟩
          exact ⟨m, hpm, (strip_manifest_snd m (finalRemovalNames names cache)).mp hch, rfl⟩
        · simp [hch] at hf
    · rintro ⟨m, hm, hch, rfl⟩
      refine ⟨(p, Except.ok m), hm, ?_⟩
      have h2 : (strip_manifest m (finalRemovalNames names cache)).2 = true :=
        (strip_manifest_snd m (finalRemovalNames names cache)).mpr hch
      simp [h2]

/-- Witness for the amended C8: with an empty requested name set, nothing is
read or written. -/
theorem manifest_write_iff_changed_amended_witness :
    remove_names_from_manifests [] []
        [("m", Except.ok (⟨some ["X"], none, none, none, none⟩ : Manifest))]
      = (([], none), []) :=
  (manifest_write_iff_changed_amended [] []
      [("m", Except.ok ⟨some ["X"], none, none, none, none⟩)] (by decide)).2.1 rfl

/-! ## `get_removals_from_plist` (deprecate.py lines 107-118) -/

/-- One entry of the removal plist's `removals` array (`item["path"]`). -/
structure RemovalEntry where
  path : String
deriving DecidableEq, Repr

/-- `[item["path"] for item in data.get("removals") if item["path"] in cache]`. -/
def pkginfoRemovalsFromPlist (data : List RemovalEntry) (cache : Cache) : List String :=
  (data.map (fun e => e.path)).filter (fun p => dictContains cache p)

/-- `[os.path.join(pkg_prefix, cache[pkginfo][pkg_key]) for pkginfo in
pkginfo_removals if cache[pkginfo].get(pkg_key)]`. -/
def pkgRemovalsFromPlist (pkgRoot : String) (data : List RemovalEntry) (cache : Cache) :
    List String :=
  (pkginfoRemovalsFromPlist data cache).filterMap (fun p =>
    match dictGet cache p with
    | none => none
    | some pl =>
      if truthy pl.installer_item_location
      then some (path_join pkgRoot (pl.installer_item_location.getD ""))
      else none)

/-- `get_removals_from_plist`: pkginfo removals followed by pkg removals. -/
def get_removals_from_plist (pkgRoot : String) (data : List RemovalEntry) (cache : Cache) :
    List String :=
  pkginfoRemovalsFromPlist data cache ++ pkgRemovalsFromPlist pkgRoot data cache

theorem dictContains_eq_true_iff (c : Cache) (k : String) :
    dictContains c k = true ↔ ∃ pl, (k, pl) ∈ c := by
  simp only [dictContains, List.any_eq_true, decide_eq_true_eq]
  constructor
  · rintro ⟨kv, hkv, rfl⟩
    exact ⟨kv.2, hkv⟩
  · rintro ⟨pl, hpl⟩
    exact ⟨(k, pl), hpl, rfl⟩

/-- C5: plist selection keeps only paths present in the current cache, and is
idempotent under replay: running the planner again on the same plist against
the cache with the first run's removal paths deleted yields an empty plan. -/
theorem plist_selection_idempotent (pkgRoot : String) (data : List RemovalEntry)
    (cache : Cache) :
    ((pkginfoRemovalsFromPlist data cache).all (fun p => dictContains cache p) = true)
      ∧ get_removals_from_plist pkgRoot data
          (cache.filter (fun kv =>
            decide (kv.1 ∉ get_removals_from_plist pkgRoot data cache))) = [] := by
  constructor
  · rw [List.all_eq_true]
    intro p hp
    exact (List.mem_filter.mp hp).2
  · have hpkginfo : pkginfoRemovalsFromPlist data
        (cache.filter (fun kv =>
          decide (kv.1 ∉ get_removals_from_plist pkgRoot data cache))) = [] := by
      rw [pkginfoRemovalsFromPlist, List.filter_eq_nil_iff]
      intro p hp
      suffices hfalse : dictContains
          (cache.filter (fun kv =>
            decide (kv.1 ∉ get_removals_from_plist pkgRoot data cache))) p = false by
        rw [hfalse]
        simp
      rw [← Bool.not_eq_true]
      intro hcon
      rcases (dictContains_eq_true_iff _ p).mp hcon with ⟨pl, hpl⟩
      have hmemf := List.mem_filter.mp hpl
      have hkey : dictContains cache p = true :=
        (dictContains_eq_true_iff cache p).mpr ⟨pl, hmemf.1⟩
      have hfirst : p ∈ get_removals_from_plist pkgRoot data cache :=
        List.mem_append.mpr (Or.inl (List.mem_filter.mpr ⟨hp, hkey⟩))
      have := hmemf.2
      simp only [decide_eq_true_eq] at this
      exact this hfirst
    rw [get_removals_from_plist, hpkginfo, pkgRemovalsFromPlist, hpkginfo]
    rfl

/-! ## `get_removals_for_categories` (deprecate.py lines 77-89) and
`warn_about_multiple_refs` (deprecate.py lines 161-171) -/

/-- `plist.get("category") in categories` (a `None` category never matches a
list of category strings). -/
def categoryMatches (categories : List String) (pl : Pkginfo) : Bool :=
  match pl.category with
  | none => false
  | some c => decide (c ∈ categories)

/-- The `pkginfo_removals` list built by `get_removals_for_categories`. -/
def pkginfoRemovalsForCategories (categories : List String) (cache : Cache) : List String :=
  (cache.filter (fun kv => categoryMatches categories kv.2)).map (fun kv => kv.1)

/-- The `pkg_removals` list built by `get_removals_for_categories`: the joined
installer path of every matching descriptor with a truthy
`installer_item_location`. -/
def pkgRemovalsForCategories (pkgRoot : String) (categories : List String) (cache : Cache) :
    List String :=
  (cache.filter (fun kv =>
      categoryMatches categories kv.2 && truthy kv.2.installer_item_location)).map
    (fun kv => path_join pkgRoot (kv.2.installer_item_location.getD ""))

/-- `get_removals_for_categories`: pkginfo removals then pkg removals. -/
def get_removals_for_categories (pkgRoot : String) (categories : List String)
    (cache : Cache) : List String :=
  pkginfoRemovalsForCategories categories cache
    ++ pkgRemovalsForCategories pkgRoot categories cache

/-- `warn_about_multiple_refs`: the pkginfo paths warned about, i.e. those not
themselves in the removal list whose `installer_item_location` is in it. -/
def warn_about_multiple_refs (removals : List String) (cache : Cache) : List String :=
  (cache.filter (fun kv =>
      !(decide (kv.1 ∈ removals)) &&
      (match kv.2.installer_item_location with
       | none => false
       | some l => decide (l ∈ removals)))).map (fun kv => kv.1)

theorem keys_nodup_val_eq {cache : Cache} {k : String} {v1 v2 : Pkginfo}
    (hnodup : (cache.map (fun kv => kv.1)).Nodup)
    (h1 : (k, v1) ∈ cache) (h2 : (k, v2) ∈ cache) : v1 = v2 := by
  induction cache with
  | nil => exact absurd h1 (List.not_mem_nil _)
  | cons kv rest ih =>
    rw [List.map_cons, List.nodup_cons] at hnodup
    rcases List.mem_cons.mp h1 with rfl | h1m
    · rcases List.mem_cons.mp h2 with h2e | h2m
      · exact (congrArg Prod.snd h2e.symm)
      · exact absurd (List.mem_map.mpr ⟨(k, v2), h2m, rfl⟩) hnodup.1
    · rcases List.mem_cons.mp h2 with rfl | h2m
      · exact absurd (List.mem_map.mpr ⟨(k, v1), h1m, rfl⟩) hnodup.1
      · exact ih hnodup.2 h1m h2m

/-- C6: a descriptor not in the removal list whose `installer_item_location`
equals a path slated for installer removal is warned about; a descriptor
whose installer location is not in the removal list is never warned about. -/
theorem multiple_refs_warning (pkgRoot : String) (categories : List String)
    (cache : Cache) (path : String) (pl : Pkginfo)
    (hmem : (path, pl) ∈ cache)
    (hnodup : (cache.map (fun kv => kv.1)).Nodup)
    (hnot : path ∉ get_removals_for_categories pkgRoot categories cache) :
    ((∃ l, pl.installer_item_location = some l
        ∧ l ∈ pkgRemovalsForCategories pkgRoot categories cache) →
      path ∈ warn_about_multiple_refs
        (get_removals_for_categories pkgRoot categories cache) cache)
    ∧ ((∀ l, pl.installer_item_location = some l →
          l ∉ get_removals_for_categories pkgRoot categories cache) →
      path ∉ warn_about_multiple_refs
        (get_removals_for_categories pkgRoot categories cache) cache) := by
  constructor
  · rintro ⟨l, hl, hlmem⟩
    apply List.mem_map.mpr
    refine ⟨(path, pl), List.mem_filter.mpr ⟨hmem, ?_⟩, rfl⟩
    rw [Bool.and_eq_true]
    constructor
    · simpa using hnot
    · rw [hl]
      have hlin : l ∈ get_removals_for_categories pkgRoot categories cache := by
        rw [get_removals_for_categories]
        exact List.mem_append.mpr (Or.inr hlmem)
      simpa using hlin
  · intro hno hcon
    rcases List.mem_map.mp hcon with ⟨kv, hkv, hkey⟩
    have hfmem := List.mem_filter.mp hkv
    have hkv2 : kv = (path, kv.2) := by
      rw [← hkey]
    rw [hkv2] at hfmem
    have hveq : kv.2 = pl := keys_nodup_val_eq hnodup hfmem.1 hmem
    rw [hveq] at hfmem
    have hcond := hfmem.2
    rw [Bool.and_eq_true] at hcond
    rcases hcond with ⟨_, hinst⟩
    match hil : pl.installer_item_location with
    | none => rw [hil] at hinst; exact absurd hinst (by simp)
    | some l =>
      rw [hil] at hinst
      simp only [decide_eq_true_eq] at hinst
      exact hno l hil hinst

/-- Witness for C6: category `apps` selects descriptor `x` with installer
`tool.pkg`; the surviving descriptor `y` references the very installer path
being removed and is warned about. -/
theorem multiple_refs_warning_witness :
    "/r/pkgsinfo/y" ∈ warn_about_multiple_refs
      (get_removals_for_categories "/r/pkgs" ["apps"]
        [("/r/pkgsinfo/x", ⟨some "A", some "apps", some "tool.pkg"⟩),
         ("/r/pkgsinfo/y", ⟨some "B", none, some "/r/pkgs/tool.pkg"⟩)])
      [("/r/pkgsinfo/x", ⟨some "A", some "apps", some "tool.pkg"⟩),
       ("/r/pkgsinfo/y", ⟨some "B", none, some "/r/pkgs/tool.pkg"⟩)] :=
  (multiple_refs_warning "/r/pkgs" ["apps"]
      [("/r/pkgsinfo/x", ⟨some "A", some "apps", some "tool.pkg"⟩),
       ("/r/pkgsinfo/y", ⟨some "B", none, some "/r/pkgs/tool.pkg"⟩)]
      "/r/pkgsinfo/y" ⟨some "B", none, some "/r/pkgs/tool.pkg"⟩
      (by decide) (by decide) (by decide)).1
    ⟨"/r/pkgs/tool.pkg", rfl, by decide⟩

/-! ## `make_folders` / `move_to_archive` (deprecate.py lines 174-198)

The filesystem is abstracted by two predicates: `present folder` is
`os.path.exists(folder)` and `mkdirOk folder` tells whether
`os.makedirs(folder)` succeeds.  `make_folders` either returns normally or
aborts the whole run with `sys.exit(1)`, embedded as `Except.error 1`. -/

/-- `make_folders(folder)`: nothing to do when the folder exists; otherwise
create it, and on `OSError` print and `sys.exit(1)`. -/
def make_folders (present mkdirOk : Bool) : Except Nat Unit :=
  if present then Except.ok ()
  else if mkdirOk then Except.ok () else Except.error 1

/-- `item.replace(repo_prefix, archive_path, 1)`: replace the first occurrence
of a non-empty pattern. -/
def replaceFirstAux (pat repl : List Char) : Nat → List Char → List Char
  | 0, cs => cs
  | _ + 1, [] => []
  | fuel + 1, c :: rest =>
    if pat.isPrefixOf (c :: rest) then repl ++ (c :: rest).drop pat.length
    else c :: replaceFirstAux pat repl fuel rest

/-- `s.replace(old, new, 1)` on Python strings. -/
def strReplaceFirst (s old new : String) : String :=
  if old.data.isEmpty then String.mk (new.data ++ s.data)
  else String.mk (replaceFirstAux old.data new.data s.data.length s.data)

/-- Drop trailing `/` characters. -/
def dropTrailingSlashes (cs : List Char) : List Char :=
  (cs.reverse.dropWhile (fun c => decide (c = '/'))).reverse

/-- `os.path.dirname(p)` for POSIX paths. -/
def dirname (p : String) : String :=
  let headRev := p.data.reverse.dropWhile (fun c => !(decide (c = '/')))
  let head := headRev.reverse
  if head.all (fun c => decide (c = '/')) then String.mk head
  else String.mk (dropTrailingSlashes head)

/-- The loop of `move_to_archive` over the removal items: per item, skip falsy
(empty) paths, ensure the mirrored directory exists via `make_folders`, then
`shutil.move`.  Returns the moves performed (in order) and the exit code if
the run aborted inside `make_folders`. -/
def archiveLoop (present mkdirOk : String → Bool) (repoRoot archivePath : String) :
    List String → List (String × String) → List (String × String) × Option Nat
  | [], moves => (moves, none)
  | item :: rest, moves =>
    if item = "" then archiveLoop present mkdirOk repoRoot archivePath rest moves
    else
      let archiveItem := strReplaceFirst item repoRoot archivePath
      match make_folders (present (dirname archiveItem)) (mkdirOk (dirname archiveItem)) with
      | Except.error e => (moves, some e)
      | Except.ok _ =>
        archiveLoop present mkdirOk repoRoot archivePath rest
          (moves ++ [(item, archiveItem)])

/-- `move_to_archive`: ensure the `pkgs` and `pkgsinfo` archive folders, then
move every removal item into the mirrored tree. -/
def move_to_archive (present mkdirOk : String → Bool) (repoRoot archivePath : String)
    (removals : List String) : List (String × String) × Option Nat :=
  match make_folders (present (path_join archivePath "pkgs"))
      (mkdirOk (path_join archivePath "pkgs")) with
  | Except.error e => ([], some e)
  | Except.ok _ =>
    match make_folders (present (path_join archivePath "pkgsinfo"))
        (mkdirOk (path_join archivePath "pkgsinfo")) with
    | Except.error e => ([], some e)
    | Except.ok _ => archiveLoop present mkdirOk repoRoot archivePath removals []

theorem make_folders_ok_iff (present mkdirOk : Bool) :
    (∃ u, make_folders present mkdirOk = Except.ok u)
      ↔ (present = true ∨ mkdirOk = true) := by
  match present, mkdirOk with
  | true, _ => simp [make_folders]
  | false, true => simp [make_folders]
  | false, false => simp [make_folders]

theorem archiveLoop_moves_have_dirs (present mkdirOk : String → Bool)
    (repoRoot archivePath : String) :
    ∀ (rest : List String) (moves : List (String × String)) (src dst : String),
      (src, dst) ∈ (archiveLoop present mkdirOk repoRoot archivePath rest moves).1 →
      (src, dst) ∈ moves
        ∨ (present (dirname dst) = true ∨ mkdirOk (dirname dst) = true) := by
  intro rest
  induction rest with
  | nil => intro moves src dst h; exact Or.inl h
  | cons item rest ih =>
    intro moves src dst h
    by_cases hempty : item = ""
    · rw [archiveLoop, if_pos hempty] at h
      exact ih moves src dst h
    · simp only [archiveLoop, if_neg hempty] at h
      rcases hmf : make_folders
          (present (dirname (strReplaceFirst item repoRoot archivePath)))
          (mkdirOk (dirname (strReplaceFirst item repoRoot archivePath))) with e | u
      · rw [hmf] at h
        exact Or.inl h
      · rw [hmf] at h
        rcases ih _ src dst h with hm | hd
        · rcases List.mem_append.mp hm with hm | hm
          · exact Or.inl hm
          · rcases List.mem_singleton.mp hm with heq
            have hdst : dst = strReplaceFirst item repoRoot archivePath :=
              congrArg Prod.snd heq
            right
            rw [hdst]
            exact (make_folders_ok_iff _ _).mp ⟨u, hmf⟩
        · exact Or.inr hd

/-- C9: a failed archive-directory creation makes `make_folders` abort the run
with exit status 1 (it never returns normally), and every file actually moved
by `move_to_archive` had its destination directory successfully ensured, so no
file is moved into a partially created archive tree. -/
theorem make_folders_aborts (present mkdirOk : String → Bool)
    (repoRoot archivePath : String) (removals : List String) :
    (∀ folder, present folder = false → mkdirOk folder = false →
        make_folders (present folder) (mkdirOk folder) = Except.error 1 ∧ (1 : Nat) ≠ 0)
      ∧ (∀ src dst,
          (src, dst) ∈ (move_to_archive present mkdirOk repoRoot archivePath removals).1 →
          present (dirname dst) = true ∨ mkdirOk (dirname dst) = true) := by
  constructor
  · intro folder h1 h2
    rw [h1, h2]
    exact ⟨rfl, by decide⟩
  · intro src dst h
    rw [move_to_archive] at h
    rcases h1 : make_folders (present (path_join archivePath "pkgs"))
        (mkdirOk (path_join archivePath "pkgs")) with e | u
    · rw [h1] at h
      exact absurd h (List.not_mem_nil _)
    · rw [h1] at h
      rcases h2 : make_folders (present (path_join archivePath "pkgsinfo"))
          (mkdirOk (path_join archivePath "pkgsinfo")) with e | u2
      · rw [h2] at h
        exact absurd h (List.not_mem_nil _)
      · rw [h2] at h
        rcases archiveLoop_moves_have_dirs present mkdirOk repoRoot archivePath
            removals [] src dst h with hm | hd
        · exact absurd hm (List.not_mem_nil _)
        · exact hd

/-- Witness for C9: a filesystem where nothing exists and every creation
fails; `make_folders` aborts with exit status 1. -/
theorem make_folders_aborts_witness :
    make_folders ((fun _ => false) "/archive/pkgs") ((fun _ => false) "/archive/pkgs")
      = Except.error 1 :=
  ((make_folders_aborts (fun _ => false) (fun _ => false) "/repo" "/archive" []).1
    "/archive/pkgs" rfl rfl).1

/-! ## C10: `get_names_to_remove` does not mutate its cache argument

The Python-level heap is modelled explicitly: a list of dict objects,
with the cache passed by reference (an index).  `future_cache = dict(cache)`
allocates a fresh object at the end of the heap, and every `del` inside the
loop is performed through the new reference. -/

/-- `get_names_to_remove` with the heap made explicit: returns the result set
and the final heap. -/
def get_names_to_remove_heap (heap : List Cache) (cacheRef : Nat)
    (removals : List String) : Finset (Option String) × List Cache :=
  let cache := heap.getD cacheRef []
  let futureRef := heap.length
  let heap1 := heap ++ [cache]
  let heap2 := removals.foldl (fun h r =>
    if dictContains (h.getD futureRef []) r
    then h.set futureRef (eraseKey (h.getD futureRef []) r)
    else h) heap1
  (removalNamesOf removals cache
      \ remainingNamesOf (heap2.getD futureRef []), heap2)

theorem heap_fold_frame (futureRef cacheRef : Nat) (hne : cacheRef ≠ futureRef) :
    ∀ (rs : List String) (h : List Cache),
      (rs.foldl (fun h r =>
          if dictContains (h.getD futureRef []) r
          then h.set futureRef (eraseKey (h.getD futureRef []) r)
          else h) h).get? cacheRef = h.get? cacheRef := by
  intro rs
  induction rs with
  | nil => intro h; rfl
  | cons r rs ih =>
    intro h
    rw [List.foldl_cons]
    by_cases hc : dictContains (h.getD futureRef []) r = true
    · rw [if_pos hc, ih]
      exact List.get?_set_ne _ _ (fun heq => hne heq.symm)
    · rw [if_neg hc]
      exact ih h

/-- C10: `get_names_to_remove` never mutates the cache it is given: the dict
the cache reference points to is identical before and after the call, because
the deletions happen on the freshly allocated copy. -/
theorem get_names_to_remove_no_mutation (heap : List Cache) (cacheRef : Nat)
    (removals : List String) (h : cacheRef < heap.length) :
    (get_names_to_remove_heap heap cacheRef removals).2.get? cacheRef
        = heap.get? cacheRef
      ∧ (get_names_to_remove_heap heap cacheRef removals).1
          = get_names_to_remove removals (heap.getD cacheRef []) := by
  have hne : cacheRef ≠ heap.length := Nat.ne_of_lt h
  have hframe := heap_fold_frame heap.length cacheRef hne removals (heap ++ [heap.getD cacheRef []])
  have happend : (heap ++ [heap.getD cacheRef []]).get? cacheRef = heap.get? cacheRef :=
    List.get?_append h
  constructor
  · show (removals.foldl _ (heap ++ [heap.getD cacheRef []])).get? cacheRef = _
    rw [hframe, happend]
  · show removalNamesOf removals (heap.getD cacheRef [])
        \ remainingNamesOf ((removals.foldl _ (heap ++ [heap.getD cacheRef []])).getD
            heap.length []) = _
    have hfuture : ∀ (rs : List String) (hp : List Cache),
        heap.length < hp.length →
        (rs.foldl (fun h2 r =>
            if dictContains (h2.getD heap.length []) r
            then h2.set heap.length (eraseKey (h2.getD heap.length []) r)
            else h2) hp).getD heap.length []
          = future_cache_after (hp.getD heap.length []) rs := by
      intro rs
      induction rs with
      | nil => intro hp _; rfl
      | cons r rs ih =>
        intro hp hlen
        rw [List.foldl_cons]
        show _ = future_cache_after
          (if dictContains (hp.getD heap.length []) r
           then eraseKey (hp.getD heap.length []) r
           else hp.getD heap.length []) rs
        by_cases hc : dictContains (hp.getD heap.length []) r = true
        · rw [if_pos hc, if_pos hc, ih _ (by rw [List.length_set]; exact hlen)]
          congr 1
          rw [List.getD, List.get?_set_eq_of_lt _ hlen]
          rfl
        · rw [if_neg hc, if_neg hc]
          exact ih hp hlen
    rw [hfuture removals _ (by
      rw [List.length_append, List.length_cons, List.length_nil]
      exact Nat.lt_succ_self _)]
    have hstart : (heap ++ [heap.getD cacheRef []]).getD heap.length []
        = heap.getD cacheRef [] := by
      rw [List.getD, List.get?_append_right (Nat.le_refl _)]
      simp
    rw [hstart]
    rfl

/-- Witness for C10: a one-object heap whose cache survives the call intact. -/
theorem get_names_to_remove_no_mutation_witness :
    (get_names_to_remove_heap [[("a", ⟨some "A", none, none⟩)]] 0 ["a"]).2.get? 0
      = ([[("a", ⟨some "A", none, none⟩)]] : List Cache).get? 0 :=
  (get_names_to_remove_no_mutation [[("a", ⟨some "A", none, none⟩)]] 0 ["a"]
    (by decide)).1

/-! ## `OrphanedInstallerReport.run_report` (report.py lines 207-236)

`os.walk(pkgs_dir)` is embedded as a list of `(dirpath, filenames)` entries
in the top-down order the walk yields them.  The set `used_packages` of
`installer_item_location` values is computed from the pkginfo cache exactly
as in the source (`if search_key in pkginfo`, i.e. key presence, not
truthiness). -/

/-- One `(dirpath, dirnames, filenames)` triple yielded by `os.walk`
(`dirnames` is never consulted). -/
structure WalkEntry where
  dirpath : String
  filenames : List String
deriving DecidableEq, Repr

/-- The basename: the characters after the last `/`. -/
def basenameChars (cs : List Char) : List Char :=
  cs.foldl (fun acc c => if c = '/' then [] else acc ++ [c]) []

/-- The extension component of `os.path.splitext(p)`: from the last dot of the
basename, provided some earlier character of the basename is not a dot. -/
def extOf (p : String) : String :=
  let rb := (basenameChars p.data).reverse
  let afterDot := rb.takeWhile (fun c => !(decide (c = '.')))
  match rb.dropWhile (fun c => !(decide (c = '.'))) with
  | [] => ""
  | _ :: beforeRev =>
    if beforeRev.any (fun c => !(decide (c = '.'))) then
      String.mk ('.' :: afterDot.reverse)
    else ""

/-- `s.split(sep)` worker: structural fuel is the length of the remaining
characters plus one, so the kernel can evaluate it. -/
def splitSub (sep : List Char) : Nat → List Char → List Char → List (List Char)
  | 0, cs, acc => [acc.reverse ++ cs]
  | _ + 1, [], acc => [acc.reverse]
  | fuel + 1, c :: rest, acc =>
    if sep.isPrefixOf (c :: rest) then
      acc.reverse :: splitSub sep fuel ((c :: rest).drop sep.length) []
    else splitSub sep fuel rest (acc ++ [c])

/-- `s.split(sep)` on Python strings, for a non-empty separator (Python
raises `ValueError` on an empty separator; that case never arises here). -/
def pySplit (s sep : String) : List String :=
  if sep.data.isEmpty then [s]
  else (splitSub sep.data (s.data.length + 1) s.data []).map String.mk

/-- The loop state of `run_report`: the accumulated `bundle_packages` set and
the accumulated `items` (orphan paths). -/
structure OrphanState where
  bundles : List String
  items : List String
deriving DecidableEq, Repr

/-- One iteration of `run_report`'s `os.walk` loop. -/
def orphanStep (used : List String) (pkgsDir : String) (st : OrphanState)
    (e : WalkEntry) : OrphanState :=
  if st.bundles.any (fun b => strContains e.dirpath b) then st
  else if decide ((strToUpper (extOf e.dirpath)) ∈ [".PKG", ".MPKG"]) then
    if !(decide (e.dirpath ∈ used)) then
      ⟨st.bundles ++ [e.dirpath], st.items ++ [e.dirpath]⟩
    else st
  else
    let relPath := (pySplit e.dirpath pkgsDir).getD 1 ""
    ⟨st.bundles,
     st.items ++ e.filenames.filterMap (fun filename =>
       let relFilename := path_join relPath filename
       let relFilename2 := if strStartsWith relFilename "/"
                           then relFilename.drop 1 else relFilename
       if !(decide (relFilename2 ∈ used))
       then some (path_join e.dirpath filename) else none)⟩

/-- The walk loop folded over all entries. -/
def orphanLoop (used : List String) (pkgsDir : String) (st : OrphanState)
    (walk : List WalkEntry) : OrphanState :=
  walk.foldl (orphanStep used pkgsDir) st

/-- `OrphanedInstallerReport.run_report`: the orphan paths reported, given the
pkginfo cache, the pkgs directory and the walk of it. -/
def OrphanedInstallerReport_run_report (cache : Cache) (pkgsDir : String)
    (walk : List WalkEntry) : List String :=
  (orphanLoop (cache.filterMap (fun kv => kv.2.installer_item_location)) pkgsDir
    ⟨[], []⟩ walk).items

/-- C7 counterexample: the bundle directory `/r/pkgs/a.pkg` is recognized by
its extension and is accounted for (it is referenced by a descriptor, being in
`used_packages`), yet the file `f` inside its subdirectory `sub` is still
reported as an independent orphan, because only orphaned bundle roots are ever
added to `bundle_packages`. -/
theorem orphan_bundle_contents_counterexample :
    strToUpper (extOf "/r/pkgs/a.pkg") = ".PKG"
      ∧ "/r/pkgs/a.pkg"
          ∈ ([("/r/pkgsinfo/a", ⟨some "A", none, some "/r/pkgs/a.pkg"⟩)] : Cache).filterMap
              (fun kv => kv.2.installer_item_location)
      ∧ strStartsWith "/r/pkgs/a.pkg/sub/f" "/r/pkgs/a.pkg/" = true
      ∧ "/r/pkgs/a.pkg"
          ∉ OrphanedInstallerReport_run_report
              [("/r/pkgsinfo/a", ⟨some "A", none, some "/r/pkgs/a.pkg"⟩)]
              "/r/pkgs"
              [⟨"/r/pkgs", []⟩, ⟨"/r/pkgs/a.pkg", []⟩, ⟨"/r/pkgs/a.pkg/sub", ["f"]⟩]
      ∧ "/r/pkgs/a.pkg/sub/f"
          ∈ OrphanedInstallerReport_run_report
              [("/r/pkgsinfo/a", ⟨some "A", none, some "/r/pkgs/a.pkg"⟩)]
              "/r/pkgs"
              [⟨"/r/pkgs", []⟩, ⟨"/r/pkgs/a.pkg", []⟩, ⟨"/r/pkgs/a.pkg/sub", ["f"]⟩] := by
  refine ⟨by decide, by decide, by decide, by decide, by decide⟩

theorem orphanStep_bundles_mono (used : List String) (pkgsDir : String)
    (st : OrphanState) (e : WalkEntry) (b : String) (hb : b ∈ st.bundles) :
    b ∈ (orphanStep used pkgsDir st e).bundles := by
  rw [orphanStep]
  by_cases h1 : st.bundles.any (fun b2 => strContains e.dirpath b2) = true
  · rw [if_pos h1]; exact hb
  · rw [if_neg h1]
    by_cases h2 : decide ((strToUpper (extOf e.dirpath)) ∈ [".PKG", ".MPKG"]) = true
    · rw [if_pos h2]
      by_cases h3 : (!(decide (e.dirpath ∈ used))) = true
      · rw [if_pos h3]
        exact List.mem_append.mpr (Or.inl hb)
      · rw [if_neg h3]; exact hb
    · rw [if_neg h2]; exact hb

theorem orphanStep_skips_inside (used : List String) (pkgsDir : String)
    (st : OrphanState) (e : WalkEntry) (b : String) (hb : b ∈ st.bundles)
    (hin : strContains e.dirpath b = true) :
    orphanStep used pkgsDir st e = st := by
  rw [orphanStep, if_pos]
  rw [List.any_eq_true]
  exact ⟨b, hb, hin⟩

/-- Once a bundle root is recorded in `bundle_packages`, every later walk
entry whose dirpath contains it is skipped entirely. -/
theorem orphanLoop_ignores_recorded_bundle (used : List String) (pkgsDir : String)
    (b : String) :
    ∀ (walk : List WalkEntry) (st : OrphanState), b ∈ st.bundles →
      orphanLoop used pkgsDir st walk
        = orphanLoop used pkgsDir st
            (walk.filter (fun e => !(strContains e.dirpath b))) := by
  intro walk
  induction walk with
  | nil => intro st _; rfl
  | cons e walk ih =>
    intro st hb
    by_cases hc : strContains e.dirpath b = true
    · rw [orphanLoop, List.foldl_cons, orphanStep_skips_inside used pkgsDir st e b hb hc,
        List.filter_cons_of_neg (by simp [hc])]
      exact ih st hb
    · rw [orphanLoop, List.foldl_cons,
        List.filter_cons_of_pos (by simp [Bool.eq_false_iff.mpr hc]), orphanLoop,
        List.foldl_cons]
      exact ih (orphanStep used pkgsDir st e) (orphanStep_bundles_mono _ _ _ _ _ hb)

/-- C7 amended: contents of a bundle-style directory are suppressed only when
the bundle root was reported as an orphan.  When a walk entry's dirpath is
recognized as a bundle by extension, is not skipped, and is not in
`used_packages`, the root is reported once (none of its own files are listed)
and every subsequent walk entry inside it is ignored; a bundle root that is
referenced by a descriptor is not recorded, and this suppression is not
provided for it (see the counterexample). -/
theorem orphan_bundle_contents_amended (used : List String) (pkgsDir : String)
    (st : OrphanState) (e : WalkEntry) (rest : List WalkEntry)
    (hskip : st.bundles.any (fun b => strContains e.dirpath b) = false)
    (hext : decide ((strToUpper (extOf e.dirpath)) ∈ [".PKG", ".MPKG"]) = true)
    (hused : e.dirpath ∉ used) :
    (orphanStep used pkgsDir st e).items = st.items ++ [e.dirpath]
      ∧ e.dirpath ∈ (orphanStep used pkgsDir st e).bundles
      ∧ orphanLoop used pkgsDir (orphanStep used pkgsDir st e) rest
          = orphanLoop used pkgsDir (orphanStep used pkgsDir st e)
              (rest.filter (fun e2 => !(strContains e2.dirpath e.dirpath))) := by
  have hstep : orphanStep used pkgsDir st e
      = ⟨st.bundles ++ [e.dirpath], st.items ++ [e.dirpath]⟩ := by
    rw [orphanStep, if_neg (by simp [hskip]), if_pos hext, if_pos (by simp [hused])]
  refine ⟨by rw [hstep], ?_, ?_⟩
  · rw [hstep]
    exact List.mem_append.mpr (Or.inr (List.mem_singleton.mpr rfl))
  · apply orphanLoop_ignores_recorded_bundle
    rw [hstep]
    exact List.mem_append.mpr (Or.inr (List.mem_singleton.mpr rfl))

/-- Witness for the amended C7: an orphan bundle root is reported, recorded,
and the walk entries inside it contribute nothing. -/
theorem orphan_bundle_contents_amended_witness :
    (orphanStep [] "/r/pkgs" ⟨[], []⟩ ⟨"/r/pkgs/b.pkg", []⟩).items = [] ++ ["/r/pkgs/b.pkg"]
      ∧ "/r/pkgs/b.pkg" ∈ (orphanStep [] "/r/pkgs" ⟨[], []⟩ ⟨"/r/pkgs/b.pkg", []⟩).bundles
      ∧ orphanLoop [] "/r/pkgs" (orphanStep [] "/r/pkgs" ⟨[], []⟩ ⟨"/r/pkgs/b.pkg", []⟩)
            [⟨"/r/pkgs/b.pkg/sub", ["g"]⟩]
          = orphanLoop [] "/r/pkgs" (orphanStep [] "/r/pkgs" ⟨[], []⟩ ⟨"/r/pkgs/b.pkg", []⟩)
              (([⟨"/r/pkgs/b.pkg/sub", ["g"]⟩] : List WalkEntry).filter
                (fun e2 => !(strContains e2.dirpath "/r/pkgs/b.pkg"))) :=
  orphan_bundle_contents_amended [] "/r/pkgs" ⟨[], []⟩ ⟨"/r/pkgs/b.pkg", []⟩
    [⟨"/r/pkgs/b.pkg/sub", ["g"]⟩] (by decide) (by decide) (by decide)

end Spruce
